import Mathlib

/-!
Shallow embedding of the AVL tree implemented in `Grafo.py` (`Node` /
`AVLTree`).  A Python `Optional[Node]` is the inductive `Node`: `nil` is
`None`, `node value left right height` is a `Node` with its three fields and
its cached `height` field.  Attribute access on `None` (an `AttributeError`
at run time) is modelled by returning `none`, so every operation that may
dereference an absent node returns `Option Node`.
-/

inductive Node : Type where
  | nil : Node
  | node (value : Int) (left right : Node) (height : Nat) : Node
deriving DecidableEq, Repr

namespace AVLTree

/-- `AVLTree._get_height`: 0 for an absent node, otherwise the cached
`height` field. -/
def get_height : Node → Nat
  | .nil => 0
  | .node _ _ _ h => h

/-- `AVLTree._get_balance`: cached left height minus cached right height. -/
def get_balance : Node → Int
  | .nil => 0
  | .node _ l r _ => (get_height l : Int) - (get_height r : Int)

/-- `AVLTree._rotate_left`: `y = z.right; T2 = y.left; y.left = z;
z.right = T2`, then recompute `z.height`, then `y.height`.  `none` when
`z` or `z.right` is absent (Python would raise `AttributeError`). -/
def rotate_left : Node → Option Node
  | .node zv zl (.node yv yl yr _) _ =>
    let z2 := Node.node zv zl yl (1 + max (get_height zl) (get_height yl))
    some (.node yv z2 yr (1 + max (get_height z2) (get_height yr)))
  | _ => none

/-- `AVLTree._rotate_right`: mirror image of `rotate_left`. -/
def rotate_right : Node → Option Node
  | .node zv (.node yv yl yr _) zr _ =>
    let z2 := Node.node zv yr zr (1 + max (get_height yr) (get_height zr))
    some (.node yv yl z2 (1 + max (get_height yl) (get_height z2)))
  | _ => none

/-- Steps 2–4 of `AVLTree._insert` (lines 39–65): after the recursive call
has produced new children `nl`, `nr` for a node with key `nv`, recompute the
height, compute the balance factor, and apply the four rotation cases in the
source's order.  `v` is the inserted value.  The balance cases `> 1` and
`< -1` are mutually exclusive, so grouping the source's four `if`s by the
sign of `balance` preserves its behaviour, including which child is
dereferenced: with `balance > 1` the source reads `node.left.value`
(`none` when `nl` is `nil`), with `balance < -1` it reads
`node.right.value`. -/
def rebal (nv : Int) (nl nr : Node) (v : Int) : Option Node :=
  let h := 1 + max (get_height nl) (get_height nr)
  let balance := get_balance (.node nv nl nr h)
  if balance > 1 then
    match nl with
    | .nil => none
    | .node lv _ _ _ =>
      if v < lv then rotate_right (.node nv nl nr h)
      else if v > lv then
        match rotate_left nl with
        | none => none
        | some nl2 => rotate_right (.node nv nl2 nr h)
      else some (.node nv nl nr h)
  else if balance < -1 then
    match nr with
    | .nil => none
    | .node rv _ _ _ =>
      if v > rv then rotate_left (.node nv nl nr h)
      else if v < rv then
        match rotate_right nr with
        | none => none
        | some nr2 => rotate_left (.node nv nl nr2 h)
      else some (.node nv nl nr h)
  else some (.node nv nl nr h)

/-- `AVLTree._insert`: standard BST descent; equal keys return the node
unchanged (cached height untouched); otherwise rebalance on the way up. -/
def insertT : Node → Int → Option Node
  | .nil, v => some (.node v .nil .nil 1)
  | .node nv nl nr nh, v =>
    if v < nv then
      match insertT nl v with
      | none => none
      | some nl2 => rebal nv nl2 nr v
    else if v > nv then
      match insertT nr v with
      | none => none
      | some nr2 => rebal nv nl nr2 v
    else some (.node nv nl nr nh)

/-- `AVLTree.insert` applied to a whole sequence of keys starting from the
empty tree (`self.root = None`); each step rebinds the root to the result of
`_insert`. -/
def insertList (ks : List Int) : Option Node :=
  ks.foldlM insertT .nil

/-- The one edge `(node.value, child.value)` emitted for an existing child,
nothing for an absent one. -/
def childEdges (v : Int) : Node → List (Int × Int)
  | .nil => []
  | .node cv _ _ _ => [(v, cv)]

/-- `AVLTree._generate_edges` (with `generate_edges` at the root): append
`(node.value, node.left.value)` and recurse left when a left child exists,
then the same on the right.  Recursing into an absent child contributes `[]`,
so the source's `if node.left:` guard around the recursive call is dropped
without changing the produced list. -/
def generate_edges : Node → List (Int × Int)
  | .nil => []
  | .node v l r _ =>
    childEdges v l ++ generate_edges l ++ childEdges v r ++ generate_edges r

end AVLTree

namespace Node

open AVLTree

/-- True recursive height: 0 for an absent node, else 1 + max of children. -/
def realHeight : Node → Nat
  | .nil => 0
  | .node _ l r _ => 1 + max (realHeight l) (realHeight r)

/-- Number of nodes. -/
def size : Node → Nat
  | .nil => 0
  | .node _ l r _ => 1 + size l + size r

/-- In-order key sequence. -/
def inorder : Node → List Int
  | .nil => []
  | .node v l r _ => inorder l ++ v :: inorder r

/-- Every key in the tree satisfies `p`. -/
def allKeys (p : Int → Bool) : Node → Bool
  | .nil => true
  | .node v l r _ => p v && allKeys p l && allKeys p r

/-- BST ordering: at every node, all left keys are below the key and all
right keys above it. -/
def isBST : Node → Bool
  | .nil => true
  | .node v l r _ =>
    allKeys (fun k => decide (k < v)) l && allKeys (fun k => decide (v < k)) r
      && isBST l && isBST r

/-- AVL balance on true heights: the children of every node differ in height
by at most one. -/
def isBalanced : Node → Bool
  | .nil => true
  | .node _ l r _ =>
    (decide (realHeight l ≤ realHeight r + 1)
      && decide (realHeight r ≤ realHeight l + 1))
      && isBalanced l && isBalanced r

/-- Height correctness: every cached `height` field equals the true
recursive height of its subtree. -/
def heightOk : Node → Bool
  | .nil => true
  | .node _ l r h =>
    (h == 1 + max (realHeight l) (realHeight r)) && heightOk l && heightOk r

/-- Key at the root of a child node; only used under a guard that the child
exists (the spec's `left.key` / `right.key`). -/
def rootKey : Node → Int
  | .nil => 0
  | .node v _ _ _ => v

/-- Edge enumeration as the claim words it: for each node, if a left child
exists emit `(node.key, left.key)` and then all edges of the left subtree,
then if a right child exists emit `(node.key, right.key)` and then all edges
of the right subtree; the empty tree yields the empty sequence. -/
def edgesSpec : Node → List (Int × Int)
  | .nil => []
  | .node v l r _ =>
    ((if l = .nil then [] else [(v, rootKey l)]) ++ edgesSpec l)
      ++ ((if r = .nil then [] else [(v, rootKey r)]) ++ edgesSpec r)

end Node

namespace Node

open AVLTree

theorem get_height_node {v : Int} {l r : Node} {h : Nat} :
    get_height (.node v l r h) = h := rfl

theorem rotate_left_node (zv yv : Int) (zl yl yr : Node) (yh zh : Nat) :
    rotate_left (.node zv zl (.node yv yl yr yh) zh)
      = some (.node yv
          (.node zv zl yl (1 + max (get_height zl) (get_height yl)))
          yr
          (1 + max (1 + max (get_height zl) (get_height yl)) (get_height yr)))
    := rfl

theorem rotate_right_node (zv yv : Int) (yl yr zr : Node) (yh zh : Nat) :
    rotate_right (.node zv (.node yv yl yr yh) zr zh)
      = some (.node yv
          yl
          (.node zv yr zr (1 + max (get_height yr) (get_height zr)))
          (1 + max (get_height yl) (1 + max (get_height yr) (get_height zr))))
    := rfl

theorem realHeight_node {v : Int} {l r : Node} {h : Nat} :
    realHeight (.node v l r h) = 1 + max (realHeight l) (realHeight r) := rfl

theorem inorder_node {v : Int} {l r : Node} {h : Nat} :
    inorder (.node v l r h) = inorder l ++ v :: inorder r := rfl

theorem heightOk_node_iff {v : Int} {l r : Node} {h : Nat} :
    heightOk (.node v l r h) = true ↔
      h = 1 + max (realHeight l) (realHeight r) ∧ heightOk l = true
        ∧ heightOk r = true := by
  simp [heightOk, Bool.and_eq_true, beq_iff_eq, and_assoc]

theorem isBalanced_node_iff {v : Int} {l r : Node} {h : Nat} :
    isBalanced (.node v l r h) = true ↔
      realHeight l ≤ realHeight r + 1 ∧ realHeight r ≤ realHeight l + 1 ∧
        isBalanced l = true ∧ isBalanced r = true := by
  simp [isBalanced, Bool.and_eq_true, and_assoc]

theorem isBST_node_iff {v : Int} {l r : Node} {h : Nat} :
    isBST (.node v l r h) = true ↔
      allKeys (fun k => decide (k < v)) l = true ∧
        allKeys (fun k => decide (v < k)) r = true ∧
        isBST l = true ∧ isBST r = true := by
  simp [isBST, Bool.and_eq_true, and_assoc]

theorem allKeys_node_iff {p : Int → Bool} {v : Int} {l r : Node} {h : Nat} :
    allKeys p (.node v l r h) = true ↔
      p v = true ∧ allKeys p l = true ∧ allKeys p r = true := by
  simp [allKeys, Bool.and_eq_true, and_assoc]

theorem get_height_eq {t : Node} (h : heightOk t = true) :
    get_height t = realHeight t := by
  cases t with
  | nil => rfl
  | node v l r ht =>
    simp only [heightOk, Bool.and_eq_true, beq_iff_eq] at h
    simp [get_height, realHeight, h.1.1]

theorem allKeys_iff {p : Int → Bool} {t : Node} :
    allKeys p t = true ↔ ∀ k ∈ inorder t, p k = true := by
  induction t with
  | nil => simp [allKeys, inorder]
  | node v l r ht ihl ihr =>
    simp only [allKeys, inorder, Bool.and_eq_true, ihl, ihr, List.mem_append,
      List.mem_cons]
    constructor
    · rintro ⟨⟨hv, hl⟩, hr⟩ k (hk | rfl | hk)
      · exact hl k hk
      · exact hv
      · exact hr k hk
    · intro h
      exact ⟨⟨h v (Or.inr (Or.inl rfl)), fun k hk => h k (Or.inl hk)⟩,
        fun k hk => h k (Or.inr (Or.inr hk))⟩

theorem allKeys_weaken {p q : Int → Bool} {t : Node}
    (hpq : ∀ k, p k = true → q k = true) (h : allKeys p t = true) :
    allKeys q t = true :=
  allKeys_iff.mpr fun k hk => hpq k (allKeys_iff.mp h k hk)

theorem pairwise_inorder {t : Node} (h : isBST t = true) :
    (inorder t).Pairwise (· < ·) := by
  induction t with
  | nil => simp [inorder]
  | node v l r ht ihl ihr =>
    simp only [isBST, Bool.and_eq_true] at h
    obtain ⟨⟨⟨hal, har⟩, hbl⟩, hbr⟩ := h
    rw [inorder, List.pairwise_append]
    refine ⟨ihl hbl, ?_, ?_⟩
    · rw [List.pairwise_cons]
      exact ⟨fun k hk => of_decide_eq_true (allKeys_iff.mp har k hk), ihr hbr⟩
    · intro a ha b hb
      have ha' : a < v := of_decide_eq_true (allKeys_iff.mp hal a ha)
      rcases List.mem_cons.mp hb with rfl | hb
      · exact ha'
      · exact ha'.trans (of_decide_eq_true (allKeys_iff.mp har b hb))

theorem nodup_inorder {t : Node} (h : isBST t = true) :
    (inorder t).Nodup :=
  (pairwise_inorder h).imp ne_of_lt

theorem length_inorder (t : Node) : (inorder t).length = size t := by
  induction t with
  | nil => rfl
  | node v l r ht ihl ihr => simp [inorder, size, ihl, ihr]; omega

theorem size_pos_of_node (v : Int) (l r : Node) (h : Nat) :
    1 ≤ size (.node v l r h) := by
  simp [size]; omega

/-- When the recomputed balance factor stays within `[-1, 1]`, `rebal` only
recomputes the height and rotates nothing. -/
theorem rebal_noRot (nv : Int) (nl nr : Node) (v : Int)
    (hol : heightOk nl = true) (hor : heightOk nr = true)
    (h1 : realHeight nl ≤ realHeight nr + 1)
    (h2 : realHeight nr ≤ realHeight nl + 1) :
    rebal nv nl nr v
      = some (.node nv nl nr (1 + max (realHeight nl) (realHeight nr))) := by
  simp only [rebal, get_balance, get_height_eq hol, get_height_eq hor]
  rw [if_neg (by omega), if_neg (by omega)]

theorem length_generate_edges (t : Node) :
    (generate_edges t).length = size t - 1 := by
  induction t with
  | nil => rfl
  | node v l r ht ihl ihr =>
    cases l <;> cases r <;>
      simp_all [generate_edges, childEdges, size, List.length_append] <;> omega

theorem rebal_left (nv v lv : Int) (ll lr nr : Node) (lh : Nat)
    (hol : heightOk (.node lv ll lr lh) = true) (hor : heightOk nr = true)
    (ball : isBalanced (.node lv ll lr lh) = true) (balr : isBalanced nr = true)
    (bstl : isBST (.node lv ll lr lh) = true) (bstr : isBST nr = true)
    (kl : allKeys (fun k => decide (k < nv)) (.node lv ll lr lh) = true)
    (kr : allKeys (fun k => decide (nv < k)) nr = true)
    (hh : realHeight (.node lv ll lr lh) = realHeight nr + 2)
    (hne : v ≠ lv)
    (hlt : v < lv → realHeight ll = realHeight lr + 1)
    (hgt : lv < v → realHeight lr = realHeight ll + 1) :
    ∃ T, rebal nv (.node lv ll lr lh) nr v = some T ∧ isBST T = true ∧
      isBalanced T = true ∧ heightOk T = true ∧
      inorder T = inorder (.node lv ll lr lh) ++ nv :: inorder nr ∧
      realHeight T = realHeight nr + 2 := by
  obtain ⟨hlh, holl, holr⟩ := heightOk_node_iff.mp hol
  obtain ⟨bl1, bl2, bll, blr⟩ := isBalanced_node_iff.mp ball
  obtain ⟨sal, sar, sll, slr⟩ := isBST_node_iff.mp bstl
  obtain ⟨klv, kll, klr⟩ := allKeys_node_iff.mp kl
  rw [realHeight_node] at hh
  have hbal : ((get_height (Node.node lv ll lr lh) : Int) - get_height nr) > 1 := by
    rw [get_height_eq hol, get_height_eq hor, realHeight_node]
    omega
  rcases lt_trichotomy v lv with hv | hv | hv
  · -- single right rotation
    have ha : realHeight ll = realHeight lr + 1 := hlt hv
    have hreb : rebal nv (.node lv ll lr lh) nr v
        = some (.node lv ll (.node nv lr nr (1 + max (realHeight lr) (realHeight nr)))
            (1 + max (realHeight ll) (1 + max (realHeight lr) (realHeight nr)))) := by
      simp only [rebal, get_balance]
      rw [if_pos hbal, if_pos hv, rotate_right_node]
      rw [get_height_eq holl, get_height_eq holr, get_height_eq hor]
    refine ⟨_, hreb, ?_, ?_, ?_, ?_, ?_⟩
    · -- isBST
      refine isBST_node_iff.mpr ⟨sal, ?_, sll, ?_⟩
      · refine allKeys_node_iff.mpr ⟨klv, sar, ?_⟩
        refine allKeys_weaken (fun k hk => ?_) kr
        exact decide_eq_true ((of_decide_eq_true klv).trans (of_decide_eq_true hk))
      · exact isBST_node_iff.mpr ⟨klr, kr, slr, bstr⟩
    · -- isBalanced
      refine isBalanced_node_iff.mpr ⟨?_, ?_, bll, ?_⟩
      · rw [realHeight_node]; omega
      · rw [realHeight_node]; omega
      · exact isBalanced_node_iff.mpr ⟨by omega, by omega, blr, balr⟩
    · -- heightOk
      refine heightOk_node_iff.mpr ⟨?_, holl, ?_⟩
      · rw [realHeight_node]
      · exact heightOk_node_iff.mpr ⟨rfl, holr, hor⟩
    · -- inorder
      simp [inorder_node, List.append_assoc]
    · -- realHeight
      rw [realHeight_node, realHeight_node]; omega
  · exact absurd hv hne
  · -- double rotation: rotate_left on the left child, then rotate_right
    have hb : realHeight lr = realHeight ll + 1 := hgt hv
    cases lr with
    | nil => exfalso; rw [show realHeight Node.nil = 0 from rfl] at hb hh; omega
    | node mv ml mr mh =>
      obtain ⟨hmh, homl, homr⟩ := heightOk_node_iff.mp holr
      obtain ⟨bm1, bm2, bml, bmr⟩ := isBalanced_node_iff.mp blr
      obtain ⟨sml, smr, ssl, ssr⟩ := isBST_node_iff.mp slr
      obtain ⟨kmv, kml, kmr⟩ := allKeys_node_iff.mp klr
      obtain ⟨smv, sml2, smr2⟩ := allKeys_node_iff.mp sar
      rw [realHeight_node] at hb hh
      have hreb : rebal nv (.node lv ll (.node mv ml mr mh) lh) nr v
          = some (.node mv
              (.node lv ll ml (1 + max (realHeight ll) (realHeight ml)))
              (.node nv mr nr (1 + max (realHeight mr) (realHeight nr)))
              (1 + max (1 + max (realHeight ll) (realHeight ml))
                (1 + max (realHeight mr) (realHeight nr)))) := by
        simp only [rebal, get_balance]
        rw [if_pos hbal, if_neg (by omega), if_pos hv]
        simp only [rotate_left_node, rotate_right_node, get_height_node, Option.some.injEq]
        rw [get_height_eq holl, get_height_eq homl, get_height_eq homr, get_height_eq hor]
      refine ⟨_, hreb, ?_, ?_, ?_, ?_, ?_⟩
      · -- isBST
        refine isBST_node_iff.mpr ⟨?_, ?_, ?_, ?_⟩
        · refine allKeys_node_iff.mpr ⟨smv, ?_, sml⟩
          refine allKeys_weaken (fun k hk => ?_) sal
          exact decide_eq_true ((of_decide_eq_true hk).trans (of_decide_eq_true smv))
        · refine allKeys_node_iff.mpr ⟨kmv, smr, ?_⟩
          refine allKeys_weaken (fun k hk => ?_) kr
          exact decide_eq_true ((of_decide_eq_true kmv).trans (of_decide_eq_true hk))
        · exact isBST_node_iff.mpr ⟨sal, sml2, sll, ssl⟩
        · exact isBST_node_iff.mpr ⟨kmr, kr, ssr, bstr⟩
      · -- isBalanced
        refine isBalanced_node_iff.mpr ⟨?_, ?_, ?_, ?_⟩
        · rw [realHeight_node, realHeight_node]; omega
        · rw [realHeight_node, realHeight_node]; omega
        · exact isBalanced_node_iff.mpr ⟨by omega, by omega, bll, bml⟩
        · exact isBalanced_node_iff.mpr ⟨by omega, by omega, bmr, balr⟩
      · -- heightOk
        refine heightOk_node_iff.mpr ⟨?_, ?_, ?_⟩
        · rw [realHeight_node, realHeight_node]
        · exact heightOk_node_iff.mpr ⟨rfl, holl, homl⟩
        · exact heightOk_node_iff.mpr ⟨rfl, homr, hor⟩
      · -- inorder
        simp [inorder_node, List.append_assoc]
      · -- realHeight
        simp only [realHeight_node]; omega



theorem rebal_right (nv v rv : Int) (nl rl rr : Node) (rh : Nat)
    (hol : heightOk nl = true) (hor : heightOk (.node rv rl rr rh) = true)
    (ball : isBalanced nl = true) (balr : isBalanced (.node rv rl rr rh) = true)
    (bstl : isBST nl = true) (bstr : isBST (.node rv rl rr rh) = true)
    (kl : allKeys (fun k => decide (k < nv)) nl = true)
    (kr : allKeys (fun k => decide (nv < k)) (.node rv rl rr rh) = true)
    (hh : realHeight (.node rv rl rr rh) = realHeight nl + 2)
    (hne : v ≠ rv)
    (hlt : v < rv → realHeight rl = realHeight rr + 1)
    (hgt : rv < v → realHeight rr = realHeight rl + 1) :
    ∃ T, rebal nv nl (.node rv rl rr rh) v = some T ∧ isBST T = true ∧
      isBalanced T = true ∧ heightOk T = true ∧
      inorder T = inorder nl ++ nv :: inorder (.node rv rl rr rh) ∧
      realHeight T = realHeight nl + 2 := by
  obtain ⟨hrh, horl, horr⟩ := heightOk_node_iff.mp hor
  obtain ⟨br1, br2, brl, brr⟩ := isBalanced_node_iff.mp balr
  obtain ⟨ral, rar, srl, srr⟩ := isBST_node_iff.mp bstr
  obtain ⟨krv, krl, krr⟩ := allKeys_node_iff.mp kr
  rw [realHeight_node] at hh
  have hbal1 : ¬ (((get_height nl : Int) - get_height (Node.node rv rl rr rh)) > 1) := by
    rw [get_height_eq hol, get_height_eq hor, realHeight_node]
    omega
  have hbal2 : ((get_height nl : Int) - get_height (Node.node rv rl rr rh)) < -1 := by
    rw [get_height_eq hol, get_height_eq hor, realHeight_node]
    omega
  rcases lt_trichotomy v rv with hv | hv | hv
  · -- double rotation: rotate_right on the right child, then rotate_left
    have hb : realHeight rl = realHeight rr + 1 := hlt hv
    cases rl with
    | nil => exfalso; rw [show realHeight Node.nil = 0 from rfl] at hb hh; omega
    | node mv ml mr mh =>
      obtain ⟨hmh, homl, homr⟩ := heightOk_node_iff.mp horl
      obtain ⟨bm1, bm2, bml, bmr⟩ := isBalanced_node_iff.mp brl
      obtain ⟨sml, smr, ssl, ssr⟩ := isBST_node_iff.mp srl
      obtain ⟨kmv, kml, kmr⟩ := allKeys_node_iff.mp krl
      obtain ⟨rmv, rml, rmr⟩ := allKeys_node_iff.mp ral
      rw [realHeight_node] at hb hh
      have hreb : rebal nv nl (.node rv (.node mv ml mr mh) rr rh) v
          = some (.node mv
              (.node nv nl ml (1 + max (realHeight nl) (realHeight ml)))
              (.node rv mr rr (1 + max (realHeight mr) (realHeight rr)))
              (1 + max (1 + max (realHeight nl) (realHeight ml))
                (1 + max (realHeight mr) (realHeight rr)))) := by
        simp only [rebal, get_balance]
        rw [if_neg hbal1, if_pos hbal2, if_neg (by omega), if_pos hv]
        simp only [rotate_left_node, rotate_right_node, get_height_node,
          Option.some.injEq]
        rw [get_height_eq hol, get_height_eq homl, get_height_eq homr,
          get_height_eq horr]
      refine ⟨_, hreb, ?_, ?_, ?_, ?_, ?_⟩
      · -- isBST
        refine isBST_node_iff.mpr ⟨?_, ?_, ?_, ?_⟩
        · refine allKeys_node_iff.mpr ⟨kmv, ?_, sml⟩
          refine allKeys_weaken (fun k hk => ?_) kl
          exact decide_eq_true ((of_decide_eq_true hk).trans (of_decide_eq_true kmv))
        · refine allKeys_node_iff.mpr ⟨rmv, smr, ?_⟩
          refine allKeys_weaken (fun k hk => ?_) rar
          exact decide_eq_true ((of_decide_eq_true rmv).trans (of_decide_eq_true hk))
        · exact isBST_node_iff.mpr ⟨kl, kml, bstl, ssl⟩
        · exact isBST_node_iff.mpr ⟨rmr, rar, ssr, srr⟩
      · -- isBalanced
        refine isBalanced_node_iff.mpr ⟨?_, ?_, ?_, ?_⟩
        · rw [realHeight_node, realHeight_node]; omega
        · rw [realHeight_node, realHeight_node]; omega
        · exact isBalanced_node_iff.mpr ⟨by omega, by omega, ball, bml⟩
        · exact isBalanced_node_iff.mpr ⟨by omega, by omega, bmr, brr⟩
      · -- heightOk
        refine heightOk_node_iff.mpr ⟨?_, ?_, ?_⟩
        · rw [realHeight_node, realHeight_node]
        · exact heightOk_node_iff.mpr ⟨rfl, hol, homl⟩
        · exact heightOk_node_iff.mpr ⟨rfl, homr, horr⟩
      · -- inorder
        simp [inorder_node, List.append_assoc]
      · -- realHeight
        simp only [realHeight_node]; omega
  · exact absurd hv hne
  · -- single left rotation
    have ha : realHeight rr = realHeight rl + 1 := hgt hv
    have hreb : rebal nv nl (.node rv rl rr rh) v
        = some (.node rv (.node nv nl rl (1 + max (realHeight nl) (realHeight rl)))
            rr (1 + max (1 + max (realHeight nl) (realHeight rl)) (realHeight rr)))
        := by
      simp only [rebal, get_balance]
      rw [if_neg hbal1, if_pos hbal2, if_pos hv, rotate_left_node]
      rw [get_height_eq hol, get_height_eq horl, get_height_eq horr]
    refine ⟨_, hreb, ?_, ?_, ?_, ?_, ?_⟩
    · -- isBST
      refine isBST_node_iff.mpr ⟨?_, rar, ?_, srr⟩
      · refine allKeys_node_iff.mpr ⟨krv, ?_, ral⟩
        refine allKeys_weaken (fun k hk => ?_) kl
        exact decide_eq_true ((of_decide_eq_true hk).trans (of_decide_eq_true krv))
      · exact isBST_node_iff.mpr ⟨kl, krl, bstl, srl⟩
    · -- isBalanced
      refine isBalanced_node_iff.mpr ⟨?_, ?_, ?_, brr⟩
      · rw [realHeight_node]; omega
      · rw [realHeight_node]; omega
      · exact isBalanced_node_iff.mpr ⟨by omega, by omega, ball, brl⟩
    · -- heightOk
      refine heightOk_node_iff.mpr ⟨?_, ?_, horr⟩
      · rw [realHeight_node]
      · exact heightOk_node_iff.mpr ⟨rfl, hol, horl⟩
    · -- inorder
      simp [inorder_node, List.append_assoc]
    · -- realHeight
      rw [realHeight_node, realHeight_node]; omega

theorem kset_left {l2 T l r : Node} {nv v : Int} (nh : Nat)
    (inoT : inorder T = inorder l2 ++ nv :: inorder r)
    (kset2 : ∀ k, k ∈ inorder l2 ↔ k ∈ inorder l ∨ k = v) :
    ∀ k, k ∈ inorder T ↔ k ∈ inorder (.node nv l r nh) ∨ k = v := by
  intro k
  rw [inoT, inorder_node]
  simp only [List.mem_append, List.mem_cons, kset2 k]
  tauto

theorem kset_right {r2 T l r : Node} {nv v : Int} (nh : Nat)
    (inoT : inorder T = inorder l ++ nv :: inorder r2)
    (kset2 : ∀ k, k ∈ inorder r2 ↔ k ∈ inorder r ∨ k = v) :
    ∀ k, k ∈ inorder T ↔ k ∈ inorder (.node nv l r nh) ∨ k = v := by
  intro k
  rw [inoT, inorder_node]
  simp only [List.mem_append, List.mem_cons, kset2 k]
  tauto

theorem kset_self {t : Node} {v : Int} (hv : v ∈ inorder t) :
    ∀ k, k ∈ inorder t ↔ k ∈ inorder t ∨ k = v := by
  intro k
  constructor
  · exact Or.inl
  · rintro (h | rfl)
    · exact h
    · exact hv

theorem insert_ok (t : Node) (v : Int)
    (hbst : isBST t = true) (hbal : isBalanced t = true)
    (hho : heightOk t = true) :
    ∃ t2, insertT t v = some t2 ∧ isBST t2 = true ∧ isBalanced t2 = true ∧
      heightOk t2 = true ∧
      (∀ k, k ∈ inorder t2 ↔ k ∈ inorder t ∨ k = v) ∧
      (v ∈ inorder t → t2 = t) ∧
      realHeight t ≤ realHeight t2 ∧ realHeight t2 ≤ realHeight t + 1 ∧
      (realHeight t2 = realHeight t + 1 →
        t = .nil ∨ ∃ w l r h, t2 = .node w l r h ∧ v ≠ w ∧
          (v < w → realHeight l = realHeight r + 1) ∧
          (w < v → realHeight r = realHeight l + 1)) := by
  induction t with
  | nil =>
    refine ⟨.node v .nil .nil 1, rfl, rfl, rfl, rfl, ?_, ?_, ?_, ?_, ?_⟩
    · intro k; simp [inorder]
    · intro hm; simp [inorder] at hm
    · exact Nat.zero_le _
    · exact Nat.le_refl _
    · exact fun _ => Or.inl rfl
  | node nv l r nh ihl ihr =>
    obtain ⟨sal, sar, sll, slr⟩ := isBST_node_iff.mp hbst
    obtain ⟨b1, b2, ball, balr⟩ := isBalanced_node_iff.mp hbal
    obtain ⟨hnh, hol, hor⟩ := heightOk_node_iff.mp hho
    rcases lt_trichotomy v nv with hv | hv | hv
    · -- insertion goes into the left subtree
      obtain ⟨l2, el2, bst2, bal2, ho2, kset2, noop2, lb2, ub2, grow2⟩ :=
        ihl sll ball hol
      clear ihl ihr
      have estep : insertT (.node nv l r nh) v = rebal nv l2 r v := by
        simp only [insertT]
        rw [if_pos hv, el2]
      have kl2 : allKeys (fun k => decide (k < nv)) l2 = true := by
        refine allKeys_iff.mpr fun k hk => ?_
        rcases (kset2 k).mp hk with h | rfl
        · exact allKeys_iff.mp sal k h
        · exact decide_eq_true hv
      have hvl : v ∈ inorder (.node nv l r nh) → v ∈ inorder l := by
        intro hm
        rw [inorder_node] at hm
        rcases List.mem_append.mp hm with h | h
        · exact h
        · rcases List.mem_cons.mp h with h' | h'
          · exact absurd h' (ne_of_lt hv)
          · exact absurd (of_decide_eq_true (allKeys_iff.mp sar v h')) (by omega)
      by_cases hcase : realHeight l2 ≤ realHeight r + 1
      · -- balance factor stays in range: no rotation
        have hr2 : realHeight r ≤ realHeight l2 + 1 := by omega
        rw [rebal_noRot nv l2 r v ho2 hor hcase hr2] at estep
        refine ⟨_, estep, ?_, ?_, ?_, ?_, ?_, ?_, ?_, ?_⟩
        · exact isBST_node_iff.mpr ⟨kl2, sar, bst2, slr⟩
        · exact isBalanced_node_iff.mpr ⟨hcase, hr2, bal2, balr⟩
        · exact heightOk_node_iff.mpr ⟨rfl, ho2, hor⟩
        · exact kset_left _ inorder_node kset2
        · intro hm
          have hl := noop2 (hvl hm)
          subst hl
          rw [hnh]
        · rw [realHeight_node, realHeight_node]; omega
        · rw [realHeight_node, realHeight_node]; omega
        · rw [realHeight_node, realHeight_node]
          intro hgrow
          refine Or.inr ⟨nv, l2, r, _, rfl, ne_of_lt hv, fun _ => ?_,
            fun h' => absurd h' (by omega)⟩
          omega
      · -- left subtree now two levels higher: rebalance
        have ha2 : realHeight l2 = realHeight r + 2 := by omega
        have hgrew : realHeight l2 = realHeight l + 1 := by omega
        rcases grow2 hgrew with rfl | ⟨lv, x, y, lhh, hl2eq, hne2, hlt2, hgt2⟩
        · exfalso
          rw [show realHeight Node.nil = 0 from rfl] at hgrew
          omega
        · subst hl2eq
          obtain ⟨T, hrebT, bstT, balT, hoT, inoT, htT⟩ :=
            rebal_left nv v lv x y r lhh ho2 hor bal2 balr bst2 slr kl2 sar
              ha2 hne2 hlt2 hgt2
          rw [hrebT] at estep
          refine ⟨T, estep, bstT, balT, hoT, ?_, ?_, ?_, ?_, ?_⟩
          · exact kset_left _ inoT kset2
          · intro hm
            exfalso
            have heq := noop2 (hvl hm)
            have h' : realHeight (Node.node lv x y lhh) = realHeight l := by
              rw [heq]
            omega
          · rw [htT, realHeight_node]; omega
          · rw [htT, realHeight_node]; omega
          · rw [htT, realHeight_node]
            intro hgrow
            exfalso
            omega
    · -- the key is already at this node: silent no-op
      clear ihl ihr
      subst hv
      refine ⟨.node v l r nh, ?_, hbst, hbal, hho, ?_, fun _ => rfl,
        le_refl _, Nat.le_succ _, ?_⟩
      · simp only [insertT]
        rw [if_neg (lt_irrefl v), if_neg (lt_irrefl v)]
      · refine kset_self ?_
        rw [inorder_node]
        exact List.mem_append_right _ (List.mem_cons_self _ _)
      · intro hgrow
        exact absurd hgrow (by omega)
    · -- insertion goes into the right subtree
      obtain ⟨r2, er2, bst2, bal2, ho2, kset2, noop2, lb2, ub2, grow2⟩ :=
        ihr slr balr hor
      clear ihl ihr
      have estep : insertT (.node nv l r nh) v = rebal nv l r2 v := by
        simp only [insertT]
        rw [if_neg (by omega), if_pos hv, er2]
      have kr2 : allKeys (fun k => decide (nv < k)) r2 = true := by
        refine allKeys_iff.mpr fun k hk => ?_
        rcases (kset2 k).mp hk with h | rfl
        · exact allKeys_iff.mp sar k h
        · exact decide_eq_true hv
      have hvr : v ∈ inorder (.node nv l r nh) → v ∈ inorder r := by
        intro hm
        rw [inorder_node] at hm
        rcases List.mem_append.mp hm with h | h
        · exact absurd (of_decide_eq_true (allKeys_iff.mp sal v h)) (by omega)
        · rcases List.mem_cons.mp h with h' | h'
          · exact absurd h' (by omega)
          · exact h'
      by_cases hcase : realHeight r2 ≤ realHeight l + 1
      · -- no rotation
        have hl2 : realHeight l ≤ realHeight r2 + 1 := by omega
        rw [rebal_noRot nv l r2 v hol ho2 hl2 hcase] at estep
        refine ⟨_, estep, ?_, ?_, ?_, ?_, ?_, ?_, ?_, ?_⟩
        · exact isBST_node_iff.mpr ⟨sal, kr2, sll, bst2⟩
        · exact isBalanced_node_iff.mpr ⟨hl2, hcase, ball, bal2⟩
        · exact heightOk_node_iff.mpr ⟨rfl, hol, ho2⟩
        · exact kset_right _ inorder_node kset2
        · intro hm
          have hr := noop2 (hvr hm)
          subst hr
          rw [hnh]
        · rw [realHeight_node, realHeight_node]; omega
        · rw [realHeight_node, realHeight_node]; omega
        · rw [realHeight_node, realHeight_node]
          intro hgrow
          refine Or.inr ⟨nv, l, r2, _, rfl, fun h' => absurd h'.symm (by omega),
            fun h' => absurd h' (by omega), fun _ => ?_⟩
          omega
      · -- right subtree now two levels higher: rebalance
        have ha2 : realHeight r2 = realHeight l + 2 := by omega
        have hgrew : realHeight r2 = realHeight r + 1 := by omega
        rcases grow2 hgrew with rfl | ⟨rv, x, y, rhh, hr2eq, hne2, hlt2, hgt2⟩
        · exfalso
          rw [show realHeight Node.nil = 0 from rfl] at hgrew
          omega
        · subst hr2eq
          obtain ⟨T, hrebT, bstT, balT, hoT, inoT, htT⟩ :=
            rebal_right nv v rv l x y rhh hol ho2 ball bal2 sll bst2 sal kr2
              ha2 hne2 hlt2 hgt2
          rw [hrebT] at estep
          refine ⟨T, estep, bstT, balT, hoT, ?_, ?_, ?_, ?_, ?_⟩
          · exact kset_right _ inoT kset2
          · intro hm
            exfalso
            have heq := noop2 (hvr hm)
            have h' : realHeight (Node.node rv x y rhh) = realHeight r := by
              rw [heq]
            omega
          · rw [htT, realHeight_node]; omega
          · rw [htT, realHeight_node]; omega
          · rw [htT, realHeight_node]
            intro hgrow
            exfalso
            omega

theorem foldl_insert_ok (ks : List Int) (t : Node)
    (hbst : isBST t = true) (hbal : isBalanced t = true)
    (hho : heightOk t = true) :
    ∃ t2, ks.foldlM insertT t = some t2 ∧ isBST t2 = true ∧
      isBalanced t2 = true ∧ heightOk t2 = true ∧
      (∀ k, k ∈ inorder t2 ↔ k ∈ inorder t ∨ k ∈ ks) := by
  induction ks generalizing t with
  | nil =>
    refine ⟨t, rfl, hbst, hbal, hho, fun k => ?_⟩
    simp
  | cons a ks ih =>
    obtain ⟨t1, e1, p1, p2, p3, kset1, _⟩ := insert_ok t a hbst hbal hho
    obtain ⟨t2, e2, q1, q2, q3, kset2⟩ := ih t1 p1 p2 p3
    refine ⟨t2, ?_, q1, q2, q3, fun k => ?_⟩
    · rw [List.foldlM_cons, e1]
      exact e2
    · rw [kset2 k]
      simp only [List.mem_cons, kset1 k]
      tauto

theorem insertList_ok (ks : List Int) :
    ∃ t, insertList ks = some t ∧ isBST t = true ∧ isBalanced t = true ∧
      heightOk t = true ∧ (∀ k, k ∈ inorder t ↔ k ∈ ks) := by
  obtain ⟨t, e, p1, p2, p3, kset⟩ := foldl_insert_ok ks .nil rfl rfl rfl
  refine ⟨t, e, p1, p2, p3, fun k => ?_⟩
  rw [kset k]
  simp [inorder]



theorem childEdges_eq (v : Int) (l : Node) :
    childEdges v l = if l = .nil then [] else [(v, rootKey l)] := by
  cases l <;> simp [childEdges, rootKey]

/-- C1: every sequence of keys inserted into an initially empty tree
succeeds, and the resulting tree satisfies all four invariants: BST
ordering, AVL balance on true heights, correctness of every cached height
field, and key uniqueness.  Instantiated at every initial segment of a
sequence this gives the invariants after each individual insert. -/
theorem claim_C1_invariant_preservation (ks : List Int) :
    ∃ t, insertList ks = some t ∧ isBST t = true ∧ isBalanced t = true ∧
      heightOk t = true ∧ (inorder t).Nodup := by
  obtain ⟨t, e, p1, p2, p3, _⟩ := insertList_ok ks
  exact ⟨t, e, p1, p2, p3, nodup_inorder p1⟩

/-- C2: on an invariant-satisfying tree, `insert` succeeds and changes the
key set to the old keys plus the inserted key; an absent key adds exactly
one node, a present key is a silent no-op returning the identical tree, and
no duplicate is ever stored. -/
theorem claim_C2_insert_keyset (t : Node) (v : Int)
    (hbst : isBST t = true) (hbal : isBalanced t = true)
    (hho : heightOk t = true) :
    ∃ t2, insertT t v = some t2 ∧
      (∀ k, k ∈ inorder t2 ↔ k ∈ inorder t ∨ k = v) ∧
      (v ∉ inorder t → size t2 = size t + 1) ∧
      (v ∈ inorder t → t2 = t) ∧
      (inorder t2).Nodup := by
  obtain ⟨t2, e, b1, b2, b3, kset, noop, _, _, _⟩ := insert_ok t v hbst hbal hho
  refine ⟨t2, e, kset, ?_, noop, nodup_inorder b1⟩
  intro hv
  have nd2 : (inorder t2).Nodup := nodup_inorder b1
  have ndc : (v :: inorder t).Nodup := List.nodup_cons.mpr ⟨hv, nodup_inorder hbst⟩
  have hperm : (inorder t2).Perm (v :: inorder t) := by
    refine (List.perm_ext_iff_of_nodup nd2 ndc).mpr fun k => ?_
    rw [kset k, List.mem_cons]
    tauto
  have hlen := hperm.length_eq
  rw [List.length_cons, length_inorder, length_inorder] at hlen
  omega

theorem claim_C2_insert_keyset_witness :
    isBST Node.nil = true ∧ isBalanced Node.nil = true ∧
    heightOk Node.nil = true ∧
    (∃ t2, insertT .nil 3 = some t2 ∧
      (∀ k, k ∈ inorder t2 ↔ k ∈ inorder .nil ∨ k = 3) ∧
      ((3 : Int) ∉ inorder .nil → size t2 = size .nil + 1) ∧
      ((3 : Int) ∈ inorder .nil → t2 = .nil) ∧
      (inorder t2).Nodup) :=
  ⟨rfl, rfl, rfl, claim_C2_insert_keyset .nil 3 rfl rfl rfl⟩

/-- C3: insertion is idempotent: on an invariant-satisfying tree, inserting
the same key twice produces exactly the tree obtained by inserting it once
(same structure, keys and stored heights, since the trees are equal as
values); in particular inserting `5, 5` into the empty tree leaves one node
with key 5 and no edges. -/
theorem claim_C3_idempotent :
    (∀ (t : Node) (v : Int), isBST t = true → isBalanced t = true →
        heightOk t = true →
        (insertT t v).bind (fun u => insertT u v) = insertT t v) ∧
      insertList [5, 5] = some (.node 5 .nil .nil 1) ∧
      generate_edges (.node 5 .nil .nil 1) = [] := by
  refine ⟨?_, by decide, rfl⟩
  intro t v hbst hbal hho
  obtain ⟨t2, e, b1, b2, b3, kset, _, _, _, _⟩ := insert_ok t v hbst hbal hho
  obtain ⟨t3, e3, _, _, _, _, noop3, _, _, _⟩ := insert_ok t2 v b1 b2 b3
  have hv : v ∈ inorder t2 := (kset v).mpr (Or.inr rfl)
  rw [e]
  show insertT t2 v = some t2
  rw [e3, noop3 hv]

theorem claim_C3_idempotent_witness :
    (insertT .nil 5).bind (fun u => insertT u 5) = insertT .nil 5 :=
  claim_C3_idempotent.1 .nil 5 rfl rfl rfl

/-- C4: `generate_edges` produces exactly the pre-order parent-child edge
enumeration the spec describes (`edgesSpec`), and returns the empty
sequence on the empty tree. -/
theorem claim_C4_edges_spec :
    (∀ t : Node, generate_edges t = edgesSpec t) ∧
      generate_edges .nil = [] := by
  refine ⟨?_, rfl⟩
  intro t
  induction t with
  | nil => rfl
  | node v l r h ihl ihr =>
    show childEdges v l ++ generate_edges l ++ childEdges v r
        ++ generate_edges r = _
    rw [childEdges_eq, childEdges_eq, ihl, ihr]
    show _ = ((if l = .nil then [] else [(v, rootKey l)]) ++ edgesSpec l)
      ++ ((if r = .nil then [] else [(v, rootKey r)]) ++ edgesSpec r)
    simp only [List.append_assoc]

/-- C5: on every tree reachable by insertions, `generate_edges` returns
exactly `n - 1` edges for `n ≥ 1` nodes and zero edges for `n ≤ 1`. -/
theorem claim_C5_edge_count (ks : List Int) (t : Node)
    (_hre : insertList ks = some t) :
    (1 ≤ size t → (generate_edges t).length = size t - 1) ∧
      (size t ≤ 1 → (generate_edges t).length = 0) := by
  have hl := length_generate_edges t
  exact ⟨fun _ => hl, fun h1 => by omega⟩

theorem claim_C5_edge_count_witness :
    insertList [10, 20, 30]
        = some (.node 20 (.node 10 .nil .nil 1) (.node 30 .nil .nil 1) 2) ∧
    ((1 ≤ size (.node 20 (.node 10 .nil .nil 1) (.node 30 .nil .nil 1) 2) →
      (generate_edges
          (.node 20 (.node 10 .nil .nil 1) (.node 30 .nil .nil 1) 2)).length
        = size (.node 20 (.node 10 .nil .nil 1) (.node 30 .nil .nil 1) 2) - 1) ∧
      (size (.node 20 (.node 10 .nil .nil 1) (.node 30 .nil .nil 1) 2) ≤ 1 →
        (generate_edges
          (.node 20 (.node 10 .nil .nil 1) (.node 30 .nil .nil 1) 2)).length
          = 0)) :=
  ⟨by decide, claim_C5_edge_count [10, 20, 30] _ (by decide)⟩

/-- C6: inserting two permutations of the same duplicate-free key set into
empty trees yields trees with the same in-order key sequence, which is a
sorted arrangement of the inserted key set. -/
theorem claim_C6_permutation (ks1 ks2 : List Int) (t1 t2 : Node)
    (hnd : ks1.Nodup) (hperm : ks1.Perm ks2)
    (h1 : insertList ks1 = some t1) (h2 : insertList ks2 = some t2) :
    inorder t1 = inorder t2 ∧ (inorder t1).Perm ks1 ∧
      (inorder t1).Pairwise (· < ·) := by
  obtain ⟨u1, e1, p1, _, _, mem1⟩ := insertList_ok ks1
  obtain ⟨u2, e2, q1, _, _, mem2⟩ := insertList_ok ks2
  rw [e1] at h1
  rw [e2] at h2
  injection h1 with h1
  injection h2 with h2
  subst h1
  subst h2
  have nd1 := nodup_inorder p1
  have nd2 := nodup_inorder q1
  have s1 := pairwise_inorder p1
  have s2 := pairwise_inorder q1
  have perm12 := (List.perm_ext_iff_of_nodup nd1 nd2).mpr fun k => by
    rw [mem1 k, mem2 k]
    exact hperm.mem_iff
  refine ⟨List.eq_of_perm_of_sorted perm12 s1 s2, ?_, s1⟩
  exact (List.perm_ext_iff_of_nodup nd1 hnd).mpr fun k => mem1 k

theorem claim_C6_permutation_witness :
    ([1, 2] : List Int).Nodup ∧ ([1, 2] : List Int).Perm [2, 1] ∧
    insertList [1, 2] = some (.node 1 .nil (.node 2 .nil .nil 1) 2) ∧
    insertList [2, 1] = some (.node 2 (.node 1 .nil .nil 1) .nil 2) ∧
    (inorder (.node 1 .nil (.node 2 .nil .nil 1) 2)
        = inorder (.node 2 (.node 1 .nil .nil 1) .nil 2) ∧
      (inorder (.node 1 .nil (.node 2 .nil .nil 1) 2)).Perm [1, 2] ∧
      (inorder (.node 1 .nil (.node 2 .nil .nil 1) 2)).Pairwise (· < ·)) := by
  refine ⟨by decide, by decide, by decide, by decide,
    claim_C6_permutation [1, 2] [2, 1] _ _ (by decide) (by decide)
      (by decide) (by decide)⟩

/-- C8: `rotate_left` on a node `z` with right child `y` returns `y` with
`y`'s old left subtree as `z`'s new right child and `z` as `y`'s new left
child, the two recomputed height fields matching the true heights of the
rotated subtrees whenever the input subtrees' height fields are correct;
`rotate_right` is the exact mirror; and both transforms preserve the
subtree's in-order key sequence and BST ordering. -/
theorem claim_C8_rotations (zv yv : Int) (a b c : Node) (yh zh : Nat)
    (hoa : heightOk a = true) (hob : heightOk b = true)
    (hoc : heightOk c = true) :
    (rotate_left (.node zv a (.node yv b c yh) zh)
        = some (.node yv (.node zv a b (1 + max (realHeight a) (realHeight b))) c
            (1 + max (1 + max (realHeight a) (realHeight b)) (realHeight c))) ∧
      heightOk (.node yv (.node zv a b (1 + max (realHeight a) (realHeight b))) c
            (1 + max (1 + max (realHeight a) (realHeight b)) (realHeight c)))
          = true ∧
      inorder (.node yv (.node zv a b (1 + max (realHeight a) (realHeight b))) c
            (1 + max (1 + max (realHeight a) (realHeight b)) (realHeight c)))
          = inorder (.node zv a (.node yv b c yh) zh) ∧
      (isBST (.node zv a (.node yv b c yh) zh) = true →
        isBST (.node yv (.node zv a b (1 + max (realHeight a) (realHeight b))) c
            (1 + max (1 + max (realHeight a) (realHeight b)) (realHeight c)))
          = true)) ∧
    (rotate_right (.node zv (.node yv b c yh) a zh)
        = some (.node yv b (.node zv c a (1 + max (realHeight c) (realHeight a)))
            (1 + max (realHeight b) (1 + max (realHeight c) (realHeight a)))) ∧
      heightOk (.node yv b (.node zv c a (1 + max (realHeight c) (realHeight a)))
            (1 + max (realHeight b) (1 + max (realHeight c) (realHeight a))))
          = true ∧
      inorder (.node yv b (.node zv c a (1 + max (realHeight c) (realHeight a)))
            (1 + max (realHeight b) (1 + max (realHeight c) (realHeight a))))
          = inorder (.node zv (.node yv b c yh) a zh) ∧
      (isBST (.node zv (.node yv b c yh) a zh) = true →
        isBST (.node yv b (.node zv c a (1 + max (realHeight c) (realHeight a)))
            (1 + max (realHeight b) (1 + max (realHeight c) (realHeight a))))
          = true)) := by
  constructor
  · refine ⟨?_, ?_, ?_, ?_⟩
    · rw [rotate_left_node, get_height_eq hoa, get_height_eq hob,
        get_height_eq hoc]
    · refine heightOk_node_iff.mpr ⟨?_, ?_, hoc⟩
      · rw [realHeight_node]
      · exact heightOk_node_iff.mpr ⟨rfl, hoa, hob⟩
    · simp [inorder_node, List.append_assoc]
    · intro hz
      obtain ⟨za, zr, bsta, bstyr⟩ := isBST_node_iff.mp hz
      obtain ⟨zrv, zrb, zrc⟩ := allKeys_node_iff.mp zr
      obtain ⟨yb, yc, bstb, bstc⟩ := isBST_node_iff.mp bstyr
      refine isBST_node_iff.mpr ⟨?_, yc, ?_, bstc⟩
      · refine allKeys_node_iff.mpr ⟨zrv, ?_, yb⟩
        refine allKeys_weaken (fun k hk => ?_) za
        exact decide_eq_true
          ((of_decide_eq_true hk).trans (of_decide_eq_true zrv))
      · exact isBST_node_iff.mpr ⟨za, zrb, bsta, bstb⟩
  · refine ⟨?_, ?_, ?_, ?_⟩
    · rw [rotate_right_node, get_height_eq hoa, get_height_eq hob,
        get_height_eq hoc]
    · refine heightOk_node_iff.mpr ⟨?_, hob, ?_⟩
      · rw [realHeight_node]
      · exact heightOk_node_iff.mpr ⟨rfl, hoc, hoa⟩
    · simp [inorder_node, List.append_assoc]
    · intro hz
      obtain ⟨zl, za, bstyl, bsta⟩ := isBST_node_iff.mp hz
      obtain ⟨zlv, zlb, zlc⟩ := allKeys_node_iff.mp zl
      obtain ⟨yb, yc, bstb, bstc⟩ := isBST_node_iff.mp bstyl
      refine isBST_node_iff.mpr ⟨yb, ?_, bstb, ?_⟩
      · refine allKeys_node_iff.mpr ⟨zlv, yc, ?_⟩
        refine allKeys_weaken (fun k hk => ?_) za
        exact decide_eq_true
          ((of_decide_eq_true zlv).trans (of_decide_eq_true hk))
      · exact isBST_node_iff.mpr ⟨zlc, za, bstc, bsta⟩

theorem claim_C8_rotations_witness :
    heightOk (.node 1 .nil .nil 1) = true ∧
    heightOk (.node 6 .nil .nil 1) = true ∧
    heightOk (.node 9 .nil .nil 1) = true ∧
    (rotate_left (.node 5 (.node 1 .nil .nil 1) (.node 8 (.node 6 .nil .nil 1)
        (.node 9 .nil .nil 1) 2) 3)
      = some (.node 8 (.node 5 (.node 1 .nil .nil 1) (.node 6 .nil .nil 1)
          (1 + max (realHeight (Node.node 1 .nil .nil 1))
            (realHeight (Node.node 6 .nil .nil 1))))
          (.node 9 .nil .nil 1)
          (1 + max (1 + max (realHeight (Node.node 1 .nil .nil 1))
            (realHeight (Node.node 6 .nil .nil 1)))
            (realHeight (Node.node 9 .nil .nil 1))))) :=
  ⟨rfl, rfl, rfl, (claim_C8_rotations 5 8 (.node 1 .nil .nil 1)
    (.node 6 .nil .nil 1) (.node 9 .nil .nil 1) 2 3 rfl rfl rfl).1.1⟩

/-- C9: inserting `10, 20, 30` in order reaches, just before the third
rebalancing step, the state where a single left rotation at the node
holding 10 produces the result; the final tree has root 20, left child 10,
right child 30, and `generate_edges` returns `[(20,10), (20,30)]`. -/
theorem claim_C9_example :
    insertList [10, 20, 30]
        = some (.node 20 (.node 10 .nil .nil 1) (.node 30 .nil .nil 1) 2) ∧
      insertT (.node 10 .nil (.node 20 .nil .nil 1) 2) 30
        = rotate_left (.node 10 .nil (.node 20 .nil (.node 30 .nil .nil 1) 2) 3) ∧
      generate_edges (.node 20 (.node 10 .nil .nil 1) (.node 30 .nil .nil 1) 2)
        = [(20, 10), (20, 30)] := by
  exact ⟨by decide, by decide, rfl⟩

/-- C10: on any tree satisfying the invariants, `_insert` never dereferences
an absent node: every rebalancing comparison and every rotation finds the
child it reads, so the `none` branches of the embedding (which model a
Python `AttributeError`) are unreachable and the insert returns a tree. -/
theorem claim_C10_null_safety (t : Node) (v : Int)
    (hbst : isBST t = true) (hbal : isBalanced t = true)
    (hho : heightOk t = true) :
    ∃ t2, insertT t v = some t2 := by
  obtain ⟨t2, e, _⟩ := insert_ok t v hbst hbal hho
  exact ⟨t2, e⟩

theorem claim_C10_null_safety_witness :
    isBST Node.nil = true ∧ isBalanced Node.nil = true ∧
    heightOk Node.nil = true ∧ (∃ t2, insertT .nil 7 = some t2) :=
  ⟨rfl, rfl, rfl, claim_C10_null_safety .nil 7 rfl rfl rfl⟩

end Node
